import Mathlib

/-!
Shallow embedding of `src/sort/fn.rs` (the `UnstableFn` function-value sort of
the egglog engine) and proofs of the specified properties.

Modelling conventions:
- `Symbol` (interned strings) is `String`.
- `Value` is the engine value struct: a debug tag naming the owning sort plus
  the opaque `bits` payload; for this sort the bits index the intern store.
- Foreign sorts (`ArcSort` in the source) are represented by the capability
  interface this file actually consults: a name and a canonicalize operation
  (`SortIface`). The union-find is an abstract type parameter `UF`.
- The `Mutex<IndexSet<ValueFunction>>` intern store is externalized: every
  operation that reads or grows it takes the current `Store` and, when it can
  insert, returns the updated one. `IndexSet::insert_full` is insert-or-find
  keyed by the `hashable` projection (name and child values, sorts excluded),
  exactly as the source's `Hash`/`PartialEq` impls define it.
- Rust panics/`unwrap` on out-of-range handles are modelled by `Option`.
-/

namespace EgglogFn

/- Definitions: the shallow embedding of src/sort/fn.rs and the concrete
fixtures used by witnesses and counterexamples. -/

/-- Interned identifier. -/
abbrev Symbol := String

/-- Literals of the language (the subset this file touches). -/
inductive Literal where
  | string (s : Symbol)
  | int (i : Int)
  | unit
deriving DecidableEq, Repr

/-- An engine value: the owning sort's name as (debug) tag plus opaque bits.
For `FunctionSort` the bits are an index into the sort's intern store. -/
structure Value where
  tag : Symbol
  bits : Nat
deriving DecidableEq, Repr

/-- The capability interface of a foreign sort as consulted by `fn.rs`:
its name and its `canonicalize` operation against the union-find `UF`.
`canonicalize v uf` returns the (possibly) updated value and the changed flag
(the source mutates `&mut Value` in place and returns `bool`). -/
structure SortIface (UF : Type) where
  name : Symbol
  canonicalize : Value → UF → Value × Bool

/-- `struct ValueFunction(Symbol, Vec<(ArcSort, Value)>)`: a function name and
the ordered partially applied arguments, each paired with its sort. -/
structure ValueFunction (UF : Type) where
  name : Symbol
  args : List (SortIface UF × Value)

/-- `ValueFunction::hashable`: drop the sorts; equality and hashing use only
the name and the child value handles. -/
def ValueFunction.hashable {UF : Type} (v : ValueFunction UF) : Symbol × List Value :=
  (v.name, v.args.map (fun p => p.2))

/-- State of the sort's `Mutex<IndexSet<ValueFunction>>` intern store, as the
ordered list of entries (handles are indices). -/
abbrev Store (UF : Type) := List (ValueFunction UF)

/-- Index of the first entry whose `hashable` projection equals `key`
(`IndexSet` lookup under the `PartialEq for ValueFunction` impl). -/
def lookupH {UF : Type} (key : Symbol × List Value) : Store UF → Option Nat
  | [] => none
  | e :: rest =>
    if e.hashable = key then some 0
    else (lookupH key rest).map (fun i => i + 1)

/-- `IndexSet::insert_full`: return the index of an existing equal entry
(leaving the store unchanged), otherwise append and return the new index. -/
def insertFull {UF : Type} (st : Store UF) (v : ValueFunction UF) : Nat × Store UF :=
  match lookupH v.hashable st with
  | some i => (i, st)
  | none => (st.length, st ++ [v])

/-- `struct FunctionSort`: declaration name, declared remaining input sorts,
output sort. (The intern store is externalized as a `Store` argument.) -/
structure FunctionSort (UF : Type) where
  name : Symbol
  inputs : List (SortIface UF)
  output : SortIface UF

/-- `impl IntoSort for ValueFunction::store`: intern the value and wrap the
index in a `Value` tagged with the sort's name. -/
def ValueFunction.store {UF : Type} (v : ValueFunction UF) (fs : FunctionSort UF)
    (st : Store UF) : Value × Store UF :=
  (⟨fs.name, (insertFull st v).1⟩, (insertFull st v).2)

/-- `FunctionSort::get_value`: indexed retrieval from the intern store;
`none` models the source's fatal `unwrap` on an out-of-range handle. -/
def FunctionSort.get_value {UF : Type} (_fs : FunctionSort UF) (st : Store UF)
    (value : Value) : Option (ValueFunction UF) :=
  st[value.bits]?

/-- `impl FromSort for ValueFunction::load`: delegates to `get_value`. -/
def ValueFunction.load {UF : Type} (fs : FunctionSort UF) (st : Store UF)
    (value : Value) : Option (ValueFunction UF) :=
  fs.get_value st value

/-- The partial-argument list after each child was canonicalized by its own
sort against the union-find. -/
def canonArgs {UF : Type} (uf : UF) (l : List (SortIface UF × Value)) :
    List (SortIface UF × Value) :=
  l.map (fun p => (p.1, (p.1.canonicalize p.2 uf).1))

/-- Whether at least one child canonicalization reported a change. -/
def canonChanged {UF : Type} (uf : UF) (l : List (SortIface UF × Value)) : Bool :=
  l.any (fun p => (p.1.canonicalize p.2 uf).2)

/-- `FunctionSort::canonicalize`: canonicalize each partial argument via its
own sort (accumulating the changed flag with `|=`), re-store the tuple of the
name with the updated arguments, overwrite the caller's handle with the store
result, and return the changed flag. The handle/store/flag results are the
returned triple; `none` models the fatal `unwrap` on a bad handle. -/
def FunctionSort.canonicalize {UF : Type} (fs : FunctionSort UF) (st : Store UF)
    (value : Value) (uf : UF) : Option (Value × Store UF × Bool) :=
  match fs.get_value st value with
  | none => none
  | some vf =>
    let folded := vf.args.foldl
      (fun (acc : Bool × List (SortIface UF × Value)) p =>
        (acc.1 || (p.1.canonicalize p.2 uf).2,
         acc.2 ++ [(p.1, (p.1.canonicalize p.2 uf).1)]))
      (false, [])
    some (((ValueFunction.mk vf.name folded.2).store fs st).1,
          ((ValueFunction.mk vf.name folded.2).store fs st).2,
          folded.1)

/-- Terms of the term DAG, modelled as trees (the external `TermDag` interns
structurally equal subterms; the observable term structure is the same). -/
inductive Term where
  | lit (l : Literal)
  | app (head : Symbol) (args : List Term)

/-- usize::MAX on the 64-bit targets the engine is built for. -/
def USIZE_MAX : Nat := 2 ^ 64 - 1

/-- `usize::saturating_add`. -/
def satAdd (a b : Nat) : Nat := min (a + b) USIZE_MAX

/-- Modelled from the spec: the cost-based extractor (external to src/);
`find_best value sort` returns the best (cost, term) for a child value, or
`none` when the child cannot currently be extracted. -/
structure Extractor (UF : Type) where
  find_best : Value → SortIface UF → Option (Nat × Term)

/-- `FunctionSort::extract_term`: a term headed by the function-name literal
followed by the extracted children; starting cost 1, each child's cost added
with saturating addition; the `try_fold` propagates `none` as soon as a child
fails to extract. -/
def FunctionSort.extract_term {UF : Type} (fs : FunctionSort UF) (st : Store UF)
    (value : Value) (ex : Extractor UF) : Option (Nat × Term) :=
  match ValueFunction.load fs st value with
  | none => none
  | some vf =>
    (vf.args.foldlM (m := Option)
      (fun (acc : Nat × List Term) p =>
        (ex.find_best p.2 p.1).map
          (fun r => (satAdd acc.1 r.1, acc.2 ++ [r.2])))
      (1, [Term.lit (Literal.string vf.name)])).map
      (fun r => (r.1, Term.app "unstable-fn" r.2))

/-- Modelled from the spec: the engine's callable-resolution, expression
lowering, and stack-interpretation services (external to src/).
`invoke name types argValues` is the value produced by resolving `name`
against the global signature table using the assembled type list (argument
sorts then output sort), lowering a call of the resolved callable applied to
one fresh temporary per argument, and executing the resulting program with
the argument values bound positionally (spec section 4.5, steps 1-6). -/
structure EGraph (UF : Type) where
  invoke : Symbol → List (SortIface UF) → List Value → Value

/-- `call_fn`: synthesize a fully-applied call of `name` on one temporary per
argument value and run it through the engine's own lowering/interpretation
path, popping the single result. -/
def call_fn {UF : Type} (egraph : EGraph UF) (name : Symbol)
    (types : List (SortIface UF)) (args : List Value) : Value :=
  egraph.invoke name types args

/-- The type list assembled by `FunctionSort::apply`: the sorts paired with
the stored partial arguments, then the declared inputs, then the output. -/
def assembledTypes {UF : Type} (fs : FunctionSort UF) (vf : ValueFunction UF) :
    List (SortIface UF) :=
  vf.args.map Prod.fst ++ fs.inputs ++ [fs.output]

/-- The value list assembled by `FunctionSort::apply`: the stored partial
argument values followed by the call-site argument values. -/
def assembledValues {UF : Type} (vf : ValueFunction UF) (argv : List Value) :
    List Value :=
  vf.args.map Prod.snd ++ argv

/-- `FunctionSort::apply`: read the stored function value and drive the call
bridge on the concatenation of stored partial arguments and call-site
arguments; `none` models the fatal `unwrap` on a bad handle. -/
def FunctionSort.applyFn {UF : Type} (fs : FunctionSort UF) (st : Store UF)
    (fnValue : Value) (argValues : List Value) (egraph : EGraph UF) :
    Option Value :=
  match fs.get_value st fnValue with
  | none => none
  | some vf =>
    some (call_fn egraph vf.name (assembledTypes fs vf) (assembledValues vf argValues))

/-- `Apply::get_type_constraints`: the fixed signature enforced at an
`unstable-app` call site, by sort name: this function sort, then the declared
inputs, then the output. The constrained atom covers the function value, the
call-site arguments, and the result, so the call-site argument count is the
length of this list minus 2. -/
def applySignature {UF : Type} (fs : FunctionSort UF) : List Symbol :=
  fs.name :: (fs.inputs.map SortIface.name ++ [fs.output.name])

/-- `impl PrimitiveLike for Apply::apply`: `expect` a live engine context
(`none` models the fatal error raised without one), then delegate to
`FunctionSort::apply` with the first value as the function and the rest as
call-site arguments. -/
def applyPrim {UF : Type} (fs : FunctionSort UF) (st : Store UF)
    (values : List Value) (egraph : Option (EGraph UF)) : Option Value :=
  match egraph with
  | none => none
  | some eg =>
    match values with
    | v0 :: rest => fs.applyFn st v0 rest eg
    | [] => none

/-- Follows the spec's words for C1: invoking `f` directly, inline, on the
given argument values through the engine's own lowering and interpretation
path. -/
def inlineInvoke {UF : Type} (egraph : EGraph UF) (f : Symbol)
    (types : List (SortIface UF)) (argValues : List Value) : Value :=
  egraph.invoke f types argValues

def i64S : SortIface Unit := ⟨"i64", fun v _ => (v, false)⟩

def strS : SortIface Unit := ⟨"String", fun v _ => (v, false)⟩

def vfOnePartial : ValueFunction Unit := ⟨"f", [(i64S, ⟨"i64", 10⟩)]⟩

def fsOneInput : FunctionSort Unit := ⟨"Fn1", [i64S], i64S⟩

def stOne : Store Unit := [vfOnePartial]

def egAny : EGraph Unit := ⟨fun _ _ _ => ⟨"i64", 0⟩⟩

/-- `impl PrimitiveLike for Ctor::apply`: load the function name from the
first (string-sort) value, pair each further value with its resolved sort,
and intern the resulting `ValueFunction`; the optional engine-context
argument is ignored (`_egraph` in the source). `loadString` is modelled from
the spec: the string sort's payload lookup (external to src/). The `none`
cases model the source's `assert!`/indexing panics, which static typing rules
out at every real call site. -/
def ctorApply {UF : Type} (fs : FunctionSort UF) (loadString : Value → Symbol)
    (st : Store UF) (values : List Value) (argSorts : List (SortIface UF))
    (_egraph : Option (EGraph UF)) : Option (Value × Store UF) :=
  if values.length = argSorts.length then
    match values, argSorts with
    | v0 :: vs, _ :: ss =>
      some ((ValueFunction.mk (loadString v0)
        ((vs.zip ss).map (fun p => (p.2, p.1)))).store fs st)
    | _, _ => none
  else none

/-- Atom terms appearing during type-constraint resolution. -/
inductive AtomTerm where
  | varT (name : Symbol)
  | litT (l : Literal)
  | globalT (name : Symbol)
deriving DecidableEq, Repr

/-- The constraints produced by `FunctionCTorTypeConstraint::get`: the
impossible constraint with an arity-mismatch diagnostic, the impossible
constraint with a function-signature-mismatch diagnostic (carrying the
expected and the actual input/output sorts), and assignment of a sort to a
term (the assigned sort recorded by its name). -/
inductive Constraint (UF : Type) where
  | arityMismatch (head : Symbol) (args : List AtomTerm) (expected : Nat)
  | functionMismatch (expected_output : SortIface UF)
      (expected_input : List (SortIface UF)) (actual_output : SortIface UF)
      (actual_input : List (SortIface UF))
  | assign (t : AtomTerm) (sortName : Symbol)

/-- A full signature from the global callable table: the complete input sort
list and the output sort. -/
structure FuncType (UF : Type) where
  input : List (SortIface UF)
  output : SortIface UF

/-- The slice of the engine's `TypeInfo` consulted by this file: the sort
table and the global function-signature table. -/
structure TypeInfo (UF : Type) where
  sorts : Symbol → Option (SortIface UF)
  func_types : Symbol → Option (FuncType UF)

/-- `FunctionCTorTypeConstraint::get`: require at least two terms; bind the
last term to this function sort; when the first term is a literal string with
a known full signature, check `D + P = F` (declared input count plus partial
count equals full input count, reporting `D + F + 1` as the expected figure
on mismatch), compare output sort and the last D input sorts by name
(reporting a function mismatch carrying expected and actual lists), and on
success bind each partial term to the corresponding full-signature input
sort; otherwise just bind the first term to the string sort. -/
def functionCTorConstraintGet {UF : Type} (cname : Symbol) (fs : FunctionSort UF)
    (typeinfo : TypeInfo UF) (arguments : List AtomTerm) : List (Constraint UF) :=
  if arguments.length < 2 then
    [Constraint.arityMismatch cname arguments 2]
  else
    let output_sort_constraint : Constraint UF :=
      Constraint.assign (arguments.getD (arguments.length - 1) (AtomTerm.litT Literal.unit))
        fs.name
    match arguments with
    | AtomTerm.litT (Literal.string fname) :: _ =>
      (match typeinfo.func_types fname with
      | some func_type =>
        if fs.inputs.length + (arguments.length - 2) ≠ func_type.input.length then
          [Constraint.arityMismatch cname arguments
            (fs.inputs.length + func_type.input.length + 1)]
        else
          if fs.output.name ≠ func_type.output.name ∨
              fs.inputs.map SortIface.name ≠
                (func_type.input.drop (arguments.length - 2)).map SortIface.name then
            [Constraint.functionMismatch fs.output fs.inputs func_type.output
              (func_type.input.drop (arguments.length - 2))]
          else
            ((func_type.input.take (arguments.length - 2)).zip (arguments.drop 1)).map
              (fun p => Constraint.assign p.2 p.1.name) ++ [output_sort_constraint]
      | none =>
        [Constraint.assign (arguments.getD 0 (AtomTerm.litT Literal.unit)) "String",
         output_sort_constraint])
    | _ =>
      [Constraint.assign (arguments.getD 0 (AtomTerm.litT Literal.unit)) "String",
       output_sort_constraint]

/-- Schema expressions as passed to `make_sort` (source spans dropped). -/
inductive Expr where
  | varE (name : Symbol)
  | litE (l : Literal)
  | callE (head : Symbol) (args : List Expr)

/-- Failures of `make_sort`: the `TypeError::UndefinedSort` type error, or a
`panic!` on a malformed declaration shape. -/
inductive MakeSortError where
  | undefinedSort (name : Symbol)
  | panicked (msg : String)

/-- `FunctionSort::make_sort`: expects `[inputs, Expr::Var(output)]`; the
inputs are a call expression listing input sort names (head symbol plus
variable arguments) or, for an empty input list, the unit literal; every
named sort is looked up in the sort table. -/
def make_sort {UF : Type} (typeinfo : TypeInfo UF) (name : Symbol)
    (args : List Expr) : Except MakeSortError (FunctionSort UF) :=
  match args with
  | [inputs, Expr.varE output] =>
    (match typeinfo.sorts output with
    | none => Except.error (MakeSortError.undefinedSort output)
    | some output_sort =>
      let input_names : Except MakeSortError (List Symbol) :=
        match inputs with
        | Expr.callE first rest =>
          rest.foldlM (fun acc e =>
            match e with
            | Expr.varE a => Except.ok (acc ++ [a])
            | _ => Except.error (MakeSortError.panicked
                "function sort must be called with list of input sorts"))
            [first]
        | Expr.litE Literal.unit => Except.ok []
        | _ => Except.error (MakeSortError.panicked
            "function sort must be called with list of input sorts")
      match input_names with
      | Except.error e => Except.error e
      | Except.ok names =>
        match names.foldlM (fun acc a =>
            match typeinfo.sorts a with
            | none => Except.error (MakeSortError.undefinedSort a)
            | some s => Except.ok (acc ++ [s])) ([] : List (SortIface UF)) with
        | Except.error e => Except.error e
        | Except.ok input_sorts =>
          Except.ok ⟨name, input_sorts, output_sort⟩)
  | _ => Except.error (MakeSortError.panicked
      "function sort must be called with list of input args and output sort")

def exAll : Extractor Unit := ⟨fun _ _ => some (2, Term.lit (Literal.int 5))⟩

def ftArity : FuncType Unit := ⟨[i64S, i64S, i64S], i64S⟩

def ftMismatch : FuncType Unit := ⟨[i64S, strS], strS⟩

def tiU : TypeInfo Unit :=
  ⟨fun s => if s = "i64" then some i64S else none,
   fun f =>
     if f = "known" then some ftArity
     else if f = "known2" then some ftMismatch
     else none⟩

/- Theorems. -/

theorem lookupH_some {UF : Type} {key : Symbol × List Value} {st : Store UF} {i : Nat}
    (h : lookupH key st = some i) : ∃ e, st[i]? = some e ∧ e.hashable = key := by
  induction st generalizing i with
  | nil => simp [lookupH] at h
  | cons hd tl ih =>
    by_cases hh : hd.hashable = key
    · simp [lookupH, hh] at h
      exact ⟨hd, by simp [← h], hh⟩
    · simp [lookupH, hh, Option.map_eq_some'] at h
      obtain ⟨j, hj, rfl⟩ := h
      obtain ⟨e, he, hk⟩ := ih hj
      exact ⟨e, by simpa using he, hk⟩

theorem lookupH_append_of_none {UF : Type} {key : Symbol × List Value} {st : Store UF}
    {w : ValueFunction UF} (h : lookupH key st = none) (hw : w.hashable = key) :
    lookupH key (st ++ [w]) = some st.length := by
  induction st with
  | nil => simp [lookupH, hw]
  | cons hd tl ih =>
    by_cases hh : hd.hashable = key
    · simp [lookupH, hh] at h
    · simp only [lookupH, hh, if_false, Option.map_eq_none'] at h
      simp only [List.cons_append, lookupH, hh, if_false, List.append_eq]
      rw [ih h]
      simp

theorem getElem?_append_of_some {UF : Type} {st l : Store UF} {i : Nat}
    {e : ValueFunction UF} (h : st[i]? = some e) : (st ++ l)[i]? = some e := by
  have hlt : i < st.length := by
    rcases List.getElem?_eq_some.mp h with ⟨hl, _⟩
    exact hl
  rw [List.getElem?_append, if_pos hlt]
  exact h

/-- The handle returned by `store` points at an entry whose `hashable`
projection equals the stored value's. -/
theorem store_spec {UF : Type} (fs : FunctionSort UF) (st : Store UF)
    (v : ValueFunction UF) :
    ∃ e, ((v.store fs st).2)[(v.store fs st).1.bits]? = some e ∧
      e.hashable = v.hashable := by
  unfold ValueFunction.store insertFull
  cases hl : lookupH v.hashable st with
  | some i => simpa using lookupH_some hl
  | none =>
    refine ⟨v, ?_, rfl⟩
    simp

/-- `store` leaves the store unchanged or appends exactly the new value. -/
theorem store_state_eq {UF : Type} (fs : FunctionSort UF) (st : Store UF)
    (v : ValueFunction UF) :
    (v.store fs st).2 = st ∨ (v.store fs st).2 = st ++ [v] := by
  unfold ValueFunction.store insertFull
  cases hl : lookupH v.hashable st with
  | some i => left; rfl
  | none => right; rfl

/-- C2: the interned store deduplicates by (name, child value handles) only:
storing `v1` and then `v2` yields the same handle iff they agree on name and
child value handles (the `hashable` projection, which excludes the paired
sort references); differing pairs receive different handles. -/
theorem store_dedup_iff {UF : Type} (fs : FunctionSort UF) (st : Store UF)
    (v1 v2 : ValueFunction UF) :
    (v2.store fs (v1.store fs st).2).1 = (v1.store fs st).1 ↔
      v1.hashable = v2.hashable := by
  constructor
  · intro heq
    obtain ⟨e1, he1, hk1⟩ := store_spec fs st v1
    obtain ⟨e2, he2, hk2⟩ := store_spec fs (v1.store fs st).2 v2
    have hext := store_state_eq fs (v1.store fs st).2 v2
    have hbits : (v2.store fs (v1.store fs st).2).1.bits = (v1.store fs st).1.bits := by
      rw [heq]
    have he1' : ((v2.store fs (v1.store fs st).2).2)[(v1.store fs st).1.bits]? = some e1 := by
      rcases hext with hsame | happ
      · rw [hsame]; exact he1
      · rw [happ]; exact getElem?_append_of_some he1
    rw [hbits] at he2
    rw [he1'] at he2
    have : e1 = e2 := by injection he2
    rw [hk1.symm, this, hk2]
  · intro hhash
    unfold ValueFunction.store insertFull
    cases hl : lookupH v1.hashable st with
    | some i =>
      have hl1 : lookupH v1.hashable st = some i := hl
      simp only [hl]
      rw [← hhash, hl1]
    | none =>
      simp only [hl]
      rw [← hhash, lookupH_append_of_none hl rfl]

/-- C7: round-trip: loading the handle returned by `store` yields a value
equal to the original under the sort's equality (name and child handles,
i.e. the `hashable` projection). -/
theorem load_store_roundtrip {UF : Type} (fs : FunctionSort UF) (st : Store UF)
    (v : ValueFunction UF) :
    ∃ e, ValueFunction.load fs (v.store fs st).2 (v.store fs st).1 = some e ∧
      e.hashable = v.hashable := by
  simpa [ValueFunction.load, FunctionSort.get_value] using store_spec fs st v

theorem canonFold {UF : Type} (uf : UF) (l : List (SortIface UF × Value))
    (b : Bool) (acc : List (SortIface UF × Value)) :
    l.foldl
      (fun (a : Bool × List (SortIface UF × Value)) p =>
        (a.1 || (p.1.canonicalize p.2 uf).2,
         a.2 ++ [(p.1, (p.1.canonicalize p.2 uf).1)]))
      (b, acc)
    = (b || canonChanged uf l, acc ++ canonArgs uf l) := by
  induction l generalizing b acc with
  | nil => simp [canonChanged, canonArgs]
  | cons hd tl ih =>
    simp only [List.foldl_cons, ih, canonChanged, canonArgs, List.any_cons,
      List.map_cons, Bool.or_assoc]
    simp [List.append_assoc]

/-- C3: `canonicalize` asks each partial argument's own sort, in order, to
canonicalize that child handle against the union-find, re-stores
(name, updated args), overwrites the caller's handle with the store result,
and returns true iff at least one child reported a change; in particular an
already-canonical value (all children unchanged) reports unchanged. -/
theorem canonicalize_spec {UF : Type} (fs : FunctionSort UF) (st : Store UF)
    (value : Value) (uf : UF) (vf : ValueFunction UF)
    (h : fs.get_value st value = some vf) :
    fs.canonicalize st value uf =
      some (((ValueFunction.mk vf.name (canonArgs uf vf.args)).store fs st).1,
            ((ValueFunction.mk vf.name (canonArgs uf vf.args)).store fs st).2,
            canonChanged uf vf.args) ∧
    (canonChanged uf vf.args = false ↔
      ∀ p ∈ vf.args, (p.1.canonicalize p.2 uf).2 = false) := by
  constructor
  · simp only [FunctionSort.canonicalize, h]
    rw [canonFold]
    simp
  · simp [canonChanged, List.any_eq_false]

theorem satAdd_foldl (cs : List Nat) : ∀ a : Nat, a ≤ USIZE_MAX →
    cs.foldl satAdd a = min (a + cs.sum) USIZE_MAX := by
  induction cs with
  | nil =>
    intro a ha
    simp
    omega
  | cons c cs ih =>
    intro a ha
    simp only [List.foldl_cons, List.sum_cons]
    rw [ih (satAdd a c) (by simp [satAdd])]
    simp only [satAdd]
    omega

theorem extractFold_none {UF : Type} (ex : Extractor UF)
    (l : List (SortIface UF × Value)) :
    ∀ acc : Nat × List Term, (∃ p ∈ l, ex.find_best p.2 p.1 = none) →
    l.foldlM (m := Option)
      (fun (acc : Nat × List Term) p =>
        (ex.find_best p.2 p.1).map
          (fun r => (satAdd acc.1 r.1, acc.2 ++ [r.2]))) acc = none := by
  induction l with
  | nil =>
    intro acc h
    simp at h
  | cons hd tl ih =>
    intro acc h
    obtain ⟨p, hp, hnone⟩ := h
    rcases List.mem_cons.mp hp with rfl | htl
    · simp [List.foldlM_cons, hnone]
    · cases hhd : ex.find_best hd.2 hd.1 with
      | none => simp [List.foldlM_cons, hhd]
      | some r =>
        simp only [List.foldlM_cons, hhd, Option.map_some']
        simpa using ih _ ⟨p, htl, hnone⟩

theorem extractFold_some {UF : Type} (ex : Extractor UF)
    (l : List (SortIface UF × Value)) :
    ∀ acc : Nat × List Term, (∀ p ∈ l, (ex.find_best p.2 p.1).isSome) →
    l.foldlM (m := Option)
      (fun (acc : Nat × List Term) p =>
        (ex.find_best p.2 p.1).map
          (fun r => (satAdd acc.1 r.1, acc.2 ++ [r.2]))) acc
    = some
        (List.foldl satAdd acc.1 (l.map (fun p =>
          ((ex.find_best p.2 p.1).getD (0, Term.lit Literal.unit)).1)),
         acc.2 ++ l.map (fun p =>
          ((ex.find_best p.2 p.1).getD (0, Term.lit Literal.unit)).2)) := by
  induction l with
  | nil =>
    intro acc h
    simp
  | cons hd tl ih =>
    intro acc h
    obtain ⟨r, hr⟩ := Option.isSome_iff_exists.mp (h hd (List.mem_cons_self hd tl))
    simp only [List.foldlM_cons, hr, Option.map_some']
    have := ih (satAdd acc.1 r.1, acc.2 ++ [r.2])
      (fun p hp => h p (List.mem_cons_of_mem hd hp))
    simpa [hr] using this

/-- C8: `extract_term` returns cost 1 plus the saturating sum of the
extracted child costs, and returns `none` whenever any partial argument
cannot currently be extracted by the extractor. -/
theorem extract_term_spec {UF : Type} (fs : FunctionSort UF) (st : Store UF)
    (value : Value) (ex : Extractor UF) (vf : ValueFunction UF)
    (h : ValueFunction.load fs st value = some vf) :
    ((∃ p ∈ vf.args, ex.find_best p.2 p.1 = none) →
        fs.extract_term st value ex = none) ∧
    ((∀ p ∈ vf.args, (ex.find_best p.2 p.1).isSome) →
        (fs.extract_term st value ex).map Prod.fst =
          some (min (1 + (vf.args.map (fun p =>
              ((ex.find_best p.2 p.1).getD (0, Term.lit Literal.unit)).1)).sum)
            USIZE_MAX)) := by
  constructor
  · intro hex
    simp only [FunctionSort.extract_term, h]
    rw [extractFold_none ex vf.args _ hex]
    rfl
  · intro hall
    simp only [FunctionSort.extract_term, h]
    rw [extractFold_some ex vf.args _ hall]
    simp only [Option.map_some']
    rw [satAdd_foldl _ 1 (by simp [USIZE_MAX])]

/-- C1: applying a stored function value to further arguments behaves
identically to invoking `f` directly on the concatenation of the stored
partial arguments and the call-site arguments through the engine's own
lowering and interpretation path. -/
theorem apply_refines_inline {UF : Type} (fs : FunctionSort UF) (st : Store UF)
    (f : Symbol) (pargs : List (SortIface UF × Value)) (argv : List Value)
    (eg : EGraph UF)
    (hfresh : lookupH (ValueFunction.hashable ⟨f, pargs⟩) st = none) :
    fs.applyFn ((ValueFunction.mk f pargs).store fs st).2
      ((ValueFunction.mk f pargs).store fs st).1 argv eg =
      some (inlineInvoke eg f (pargs.map Prod.fst ++ fs.inputs ++ [fs.output])
        (pargs.map Prod.snd ++ argv)) := by
  have hst : (ValueFunction.mk f pargs).store fs st =
      (⟨fs.name, st.length⟩, st ++ [⟨f, pargs⟩]) := by
    unfold ValueFunction.store insertFull
    rw [hfresh]
  rw [hst]
  simp [FunctionSort.applyFn, FunctionSort.get_value, call_fn, inlineInvoke,
    assembledTypes, assembledValues]

theorem apply_refines_inline_witness :
    fsOneInput.applyFn ((ValueFunction.mk "g" [(i64S, ⟨"i64", 3⟩)]).store fsOneInput []).2
      ((ValueFunction.mk "g" [(i64S, ⟨"i64", 3⟩)]).store fsOneInput []).1
      [⟨"i64", 4⟩] egAny =
      some (inlineInvoke egAny "g"
        ([((i64S : SortIface Unit), (⟨"i64", 3⟩ : Value))].map Prod.fst ++
          fsOneInput.inputs ++ [fsOneInput.output])
        ([((i64S : SortIface Unit), (⟨"i64", 3⟩ : Value))].map Prod.snd ++ [⟨"i64", 4⟩])) :=
  apply_refines_inline fsOneInput [] "g" [(i64S, ⟨"i64", 3⟩)] [⟨"i64", 4⟩] egAny rfl

/-- C4 counterexample: a successful apply that conforms to the Apply
primitive's fixed call-site arity, whose stored partial-argument count plus
call-site argument count differs from the declared remaining-input count:
one stored partial argument plus one call-site argument against a sort with
one declared input. -/
theorem apply_arity_claim_counterexample :
    (fsOneInput.applyFn stOne ⟨"Fn1", 0⟩ [⟨"i64", 11⟩] egAny).isSome = true ∧
    [(⟨"i64", 11⟩ : Value)].length = (applySignature fsOneInput).length - 2 ∧
    vfOnePartial.args.length + [(⟨"i64", 11⟩ : Value)].length ≠
      fsOneInput.inputs.length := by
  refine ⟨rfl, rfl, ?_⟩
  decide

/-- C4 amended: for every successful apply, the call-site argument count
fixed by the Apply primitive's type constraint equals the declared
remaining-input count, and the stored partial-argument count plus the
call-site count equals the length of the assembled argument-value list handed
to the call bridge (the resolved callable's full input count); the assembled
type list additionally carries the output sort. -/
theorem apply_arity_amended {UF : Type} (fs : FunctionSort UF) (st : Store UF)
    (fv : Value) (argv : List Value) (eg : EGraph UF) (vf : ValueFunction UF)
    (h1 : fs.get_value st fv = some vf)
    (h2 : argv.length = (applySignature fs).length - 2) :
    fs.applyFn st fv argv eg =
      some (call_fn eg vf.name (assembledTypes fs vf) (assembledValues vf argv)) ∧
    argv.length = fs.inputs.length ∧
    (assembledValues vf argv).length = vf.args.length + fs.inputs.length ∧
    (assembledTypes fs vf).length = (assembledValues vf argv).length + 1 := by
  have hlen : argv.length = fs.inputs.length := by
    simp [applySignature] at h2
    omega
  refine ⟨?_, hlen, ?_, ?_⟩
  · simp [FunctionSort.applyFn, h1]
  · simp [assembledValues, hlen]
  · simp [assembledTypes, assembledValues, hlen]
    omega

theorem apply_arity_amended_witness :
    fsOneInput.applyFn stOne ⟨"Fn1", 0⟩ [⟨"i64", 11⟩] egAny =
      some (call_fn egAny vfOnePartial.name (assembledTypes fsOneInput vfOnePartial)
        (assembledValues vfOnePartial [⟨"i64", 11⟩])) ∧
    [(⟨"i64", 11⟩ : Value)].length = fsOneInput.inputs.length ∧
    (assembledValues vfOnePartial [⟨"i64", 11⟩]).length =
      vfOnePartial.args.length + fsOneInput.inputs.length ∧
    (assembledTypes fsOneInput vfOnePartial).length =
      (assembledValues vfOnePartial [⟨"i64", 11⟩]).length + 1 :=
  apply_arity_amended fsOneInput stOne ⟨"Fn1", 0⟩ [⟨"i64", 11⟩] egAny vfOnePartial rfl rfl

/-- C10: the constructor primitive never requires an evaluation context: its
result is independent of the optional engine handle, it succeeds (returns a
handle) with no engine context whenever the statically guaranteed arity
assertion holds, and the only state it touches is the sort's own intern
store, which it leaves unchanged or extends by one entry -- in contrast to
the apply primitive, which fails fatally without an engine context. -/
theorem ctor_ignores_egraph {UF : Type} (fs : FunctionSort UF)
    (loadString : Value → Symbol) (st : Store UF) (values : List Value)
    (argSorts : List (SortIface UF)) (eg : Option (EGraph UF)) :
    ctorApply fs loadString st values argSorts eg =
      ctorApply fs loadString st values argSorts none ∧
    (values.length = argSorts.length → values ≠ [] →
      (ctorApply fs loadString st values argSorts eg).isSome = true ∧
      ∀ res ∈ ctorApply fs loadString st values argSorts eg,
        res.2 = st ∨ ∃ w, res.2 = st ++ [w]) ∧
    applyPrim fs st values none = none := by
  refine ⟨rfl, ?_, rfl⟩
  intro hlen hne
  cases values with
  | nil => exact absurd rfl hne
  | cons v0 vs =>
    cases argSorts with
    | nil => simp at hlen
    | cons s0 ss =>
      constructor
      · simp [ctorApply, hlen]
      · intro res hres
        simp only [ctorApply, if_pos hlen, Option.mem_def, Option.some_inj] at hres
        rcases store_state_eq fs st (ValueFunction.mk (loadString v0)
            ((vs.zip ss).map (fun p => (p.2, p.1)))) with hcase | hcase
        · left
          rw [← hres]
          exact hcase
        · right
          exact ⟨_, by rw [← hres]; exact hcase⟩

theorem ctor_ignores_egraph_witness :
    (ctorApply fsOneInput (fun _ => "f") [] [⟨"String", 0⟩, ⟨"i64", 1⟩]
      [strS, i64S] (some egAny)).isSome = true :=
  ((ctor_ignores_egraph fsOneInput (fun _ => "f") [] [⟨"String", 0⟩, ⟨"i64", 1⟩]
    [strS, i64S] (some egAny)).2.1 rfl (by simp)).1

/-- C5: known name, full signature present, and D + P differs from F: the
resolver returns exactly the arity-mismatch diagnostic whose reported
expected value is D + F + 1. -/
theorem ctor_arity_diag {UF : Type} (cname : Symbol) (fs : FunctionSort UF)
    (typeinfo : TypeInfo UF) (fname : Symbol) (rest : List AtomTerm)
    (ft : FuncType UF)
    (hlen : ¬ (AtomTerm.litT (Literal.string fname) :: rest).length < 2)
    (hft : typeinfo.func_types fname = some ft)
    (hmis : fs.inputs.length +
        ((AtomTerm.litT (Literal.string fname) :: rest).length - 2) ≠ ft.input.length) :
    functionCTorConstraintGet cname fs typeinfo
        (AtomTerm.litT (Literal.string fname) :: rest) =
      [Constraint.arityMismatch cname
        (AtomTerm.litT (Literal.string fname) :: rest)
        (fs.inputs.length + ft.input.length + 1)] := by
  simp only [functionCTorConstraintGet, if_neg hlen, hft, if_pos hmis]

/-- C6: known name, full signature present, arity check passed, but the
declared output sort or declared input sorts disagree by name with the full
signature's output and last-D input sorts: the resolver returns exactly the
function-mismatch diagnostic carrying the expected (declared) and actual
(signature) input/output sorts. -/
theorem ctor_signature_diag {UF : Type} (cname : Symbol) (fs : FunctionSort UF)
    (typeinfo : TypeInfo UF) (fname : Symbol) (rest : List AtomTerm)
    (ft : FuncType UF)
    (hlen : ¬ (AtomTerm.litT (Literal.string fname) :: rest).length < 2)
    (hft : typeinfo.func_types fname = some ft)
    (hok : ¬ (fs.inputs.length +
        ((AtomTerm.litT (Literal.string fname) :: rest).length - 2) ≠ ft.input.length))
    (hne : fs.output.name ≠ ft.output.name ∨
        fs.inputs.map SortIface.name ≠
          (ft.input.drop ((AtomTerm.litT (Literal.string fname) :: rest).length - 2)).map
            SortIface.name) :
    functionCTorConstraintGet cname fs typeinfo
        (AtomTerm.litT (Literal.string fname) :: rest) =
      [Constraint.functionMismatch fs.output fs.inputs ft.output
        (ft.input.drop ((AtomTerm.litT (Literal.string fname) :: rest).length - 2))] := by
  simp only [functionCTorConstraintGet, if_neg hlen, hft, if_neg hok, if_pos hne]

/-- C9: a function sort may be declared with zero input sorts: the unit
literal as the input list produces a descriptor whose declared input list is
empty, so the Apply signature for such a sort fixes zero further call-site
arguments. -/
theorem make_sort_empty_inputs {UF : Type} (typeinfo : TypeInfo UF)
    (name output : Symbol) (os : SortIface UF)
    (h : typeinfo.sorts output = some os) :
    make_sort typeinfo name [Expr.litE Literal.unit, Expr.varE output] =
      Except.ok (⟨name, [], os⟩ : FunctionSort UF) ∧
    (applySignature (⟨name, [], os⟩ : FunctionSort UF)).length - 2 = 0 := by
  constructor
  · simp [make_sort, h, pure, Except.pure]
  · simp [applySignature]

theorem canonicalize_spec_witness :
    fsOneInput.canonicalize stOne ⟨"Fn1", 0⟩ () =
      some (((ValueFunction.mk vfOnePartial.name
                (canonArgs () vfOnePartial.args)).store fsOneInput stOne).1,
            ((ValueFunction.mk vfOnePartial.name
                (canonArgs () vfOnePartial.args)).store fsOneInput stOne).2,
            canonChanged () vfOnePartial.args) ∧
    (canonChanged () vfOnePartial.args = false ↔
      ∀ p ∈ vfOnePartial.args, (p.1.canonicalize p.2 ()).2 = false) :=
  canonicalize_spec fsOneInput stOne ⟨"Fn1", 0⟩ () vfOnePartial rfl

theorem extract_term_spec_witness :
    ((∃ p ∈ vfOnePartial.args, exAll.find_best p.2 p.1 = none) →
        fsOneInput.extract_term stOne ⟨"Fn1", 0⟩ exAll = none) ∧
    ((∀ p ∈ vfOnePartial.args, (exAll.find_best p.2 p.1).isSome) →
        (fsOneInput.extract_term stOne ⟨"Fn1", 0⟩ exAll).map Prod.fst =
          some (min (1 + (vfOnePartial.args.map (fun p =>
              ((exAll.find_best p.2 p.1).getD (0, Term.lit Literal.unit)).1)).sum)
            USIZE_MAX)) :=
  extract_term_spec fsOneInput stOne ⟨"Fn1", 0⟩ exAll vfOnePartial rfl

theorem ctor_arity_diag_witness :
    functionCTorConstraintGet "unstable-fn" fsOneInput tiU
        (AtomTerm.litT (Literal.string "known") ::
          [AtomTerm.varT "x", AtomTerm.varT "r"]) =
      [Constraint.arityMismatch "unstable-fn"
        (AtomTerm.litT (Literal.string "known") ::
          [AtomTerm.varT "x", AtomTerm.varT "r"])
        (fsOneInput.inputs.length + ftArity.input.length + 1)] :=
  ctor_arity_diag "unstable-fn" fsOneInput tiU "known"
    [AtomTerm.varT "x", AtomTerm.varT "r"] ftArity (by decide) rfl (by decide)

theorem ctor_signature_diag_witness :
    functionCTorConstraintGet "unstable-fn" fsOneInput tiU
        (AtomTerm.litT (Literal.string "known2") ::
          [AtomTerm.varT "x", AtomTerm.varT "r"]) =
      [Constraint.functionMismatch fsOneInput.output fsOneInput.inputs
        ftMismatch.output
        (ftMismatch.input.drop
          ((AtomTerm.litT (Literal.string "known2") ::
            [AtomTerm.varT "x", AtomTerm.varT "r"]).length - 2))] :=
  ctor_signature_diag "unstable-fn" fsOneInput tiU "known2"
    [AtomTerm.varT "x", AtomTerm.varT "r"] ftMismatch (by decide) rfl (by decide)
    (by left; decide)

theorem make_sort_empty_inputs_witness :
    make_sort tiU "NoArgFn" [Expr.litE Literal.unit, Expr.varE "i64"] =
      Except.ok (⟨"NoArgFn", [], i64S⟩ : FunctionSort Unit) ∧
    (applySignature (⟨"NoArgFn", [], i64S⟩ : FunctionSort Unit)).length - 2 = 0 :=
  make_sort_empty_inputs tiU "NoArgFn" "i64" i64S rfl

end EgglogFn
